import Mathlib

/-!
Shallow embedding of the softlab `huo` execution core: the scheduler in
`softlab/huo/impl_scheduler.py` (`_CtrlPoint`, `_ActionRunner`,
`_SchedulerImpl`), the `Action`/`Scheduler` interface in
`softlab/huo/base.py`, and the process algebra in `softlab/huo/process.py`.

Modelling conventions, used throughout:
* Python exceptions become values of `PyErr`; code that can raise returns
  `Except PyErr _`.
* An `asyncio.Future` is modelled by its observable state `FState`
  (unresolved / resolved with a value / resolved with an exception /
  cancelled); resolving is single-shot, as in asyncio.
* `uuid.uuid4()` keys are modelled by an injective generator driven by a
  fresh counter held in the scheduler state (the source relies on uuid4
  collision-freedom); the empty string still means "no point".
* Awaiting a future that may resolve while the caller is suspended is
  modelled by passing the `Resolution` the future eventually attains.
  The model covers `timeout=None` (no caller in the verified claims
  passes a finite timeout).
-/

namespace Softlab

/-- Python exception values relevant to the `huo` core. -/
inductive PyErr where
  | typeError (msg : String)
  | valueError (msg : String)
  | runtimeError (msg : String)
  | cancelledError
  | exc (tag : Nat)
deriving DecidableEq, Repr

/-- Observable state of an `asyncio.Future`. -/
inductive FState where
  | pending
  | success
  | failedExc (e : PyErr)
  | cancelled
deriving DecidableEq, Repr

/-- Model of the `_CtrlPoint.status` property read on a future in state `f`:
`future.done()` is false ⇒ `None`; a future resolved with `set_exception`
has `future.exception() != None` ⇒ `False`; a cleanly resolved future ⇒
`True`.  On a *cancelled* future, `future.exception()` itself raises
`CancelledError`, so the property raises rather than returning a value. -/
def fstatus : FState → Except PyErr (Option Bool)
  | .pending => .ok none
  | .success => .ok (some true)
  | .failedExc _ => .ok (some false)
  | .cancelled => .error .cancelledError

/-- State of `_CtrlPoint` (impl_scheduler.py): the backing future, the
fan-in counter `_count`, and the registered previous/post action ids. -/
structure CtrlPoint where
  fut : FState
  count : Nat
  previous : List String
  posts : List String
deriving DecidableEq, Repr

/-- `_CtrlPoint.is_done`: whether the backing future is resolved. -/
def CtrlPoint.is_done (p : CtrlPoint) : Bool :=
  p.fut ≠ FState.pending

/-- `_CtrlPoint.status` property. -/
def CtrlPoint.status (p : CtrlPoint) : Except PyErr (Option Bool) :=
  fstatus p.fut

/-- `_CtrlPoint.add_previous`: registers one more incoming action;
raises `ValueError` on an empty or duplicate id, otherwise appends the id
and increments the fan-in counter. -/
def CtrlPoint.add_previous (id : String) (p : CtrlPoint) :
    Except PyErr CtrlPoint :=
  if id = "" ∨ id ∈ p.previous then
    .error (.valueError "Action ID is invalid")
  else
    .ok { p with previous := p.previous ++ [id], count := p.count + 1 }

/-- `_CtrlPoint.add_post`: records a downstream action id;
raises `ValueError` on an empty or duplicate id. -/
def CtrlPoint.add_post (id : String) (p : CtrlPoint) :
    Except PyErr CtrlPoint :=
  if id = "" ∨ id ∈ p.posts then
    .error (.valueError "Action ID is invalid")
  else
    .ok { p with posts := p.posts ++ [id] }

/-- `_CtrlPoint.finish`: a no-op once the future is resolved; with an
exception it resolves the future as failed immediately; with no exception
it decrements the counter and resolves the future successfully when the
counter reaches zero. -/
def CtrlPoint.finish (exp : Option PyErr) (p : CtrlPoint) : CtrlPoint :=
  if p.fut = FState.pending then
    match exp with
    | some e => { p with fut := FState.failedExc e }
    | none =>
      if 0 < p.count then
        if p.count - 1 = 0 then
          { p with count := 0, fut := FState.success }
        else
          { p with count := p.count - 1 }
      else p
  else p

/-- `_CtrlPoint.cancel`: cancels the backing future unless already
resolved. -/
def CtrlPoint.cancel (_src : String) (p : CtrlPoint) : CtrlPoint :=
  if p.fut = FState.pending then { p with fut := FState.cancelled } else p

/-- The resolution a pending future eventually attains while a caller is
suspended on it. -/
inductive Resolution where
  | success
  | failedExc (e : PyErr)
  | cancelled
deriving DecidableEq, Repr

/-- The future state a resolution leaves behind. -/
def Resolution.toState : Resolution → FState
  | .success => FState.success
  | .failedExc e => FState.failedExc e
  | .cancelled => FState.cancelled

/-- `_CtrlPoint.wait` with `timeout=None`: if the future is already done
it returns `self.status`; otherwise it awaits the future.  The `await`
re-raises an exception the future was resolved with (only
`asyncio.TimeoutError` is caught in the source) and raises
`CancelledError` if the future is cancelled; on a clean resolution it
returns `self.status` of the resolved future. -/
def CtrlPoint.wait (eventual : Resolution) (p : CtrlPoint) :
    Except PyErr (Option Bool) :=
  if p.fut = FState.pending then
    match eventual with
    | .success => fstatus FState.success
    | .failedExc e => .error e
    | .cancelled => .error .cancelledError
  else
    fstatus p.fut

/-- Iterated `finish(None)`: `finishN k` applies `k` successful
completion reports to a control point. -/
def finishN : Nat → CtrlPoint → CtrlPoint
  | 0, p => p
  | n + 1, p => finishN n (CtrlPoint.finish none p)

theorem finishN_pending (j : Nat) :
    ∀ p : CtrlPoint, p.fut = FState.pending → j < p.count →
      finishN j p = { p with count := p.count - j } := by
  induction j with
  | zero =>
    intro p _ _
    simp [finishN]
  | succ n ih =>
    intro p hp hc
    have h1 : 0 < p.count := Nat.lt_of_le_of_lt (Nat.zero_le _) hc
    have h2 : p.count - 1 ≠ 0 := by omega
    have hstep : CtrlPoint.finish none p = { p with count := p.count - 1 } := by
      simp [CtrlPoint.finish, hp, h1, h2]
    have hlt : n < ({ p with count := p.count - 1 } : CtrlPoint).count := by
      simp only []
      omega
    calc finishN (n + 1) p = finishN n (CtrlPoint.finish none p) := rfl
      _ = finishN n { p with count := p.count - 1 } := by rw [hstep]
      _ = { p with count := p.count - 1 - n } := by
            rw [ih _ (by simp [hp]) hlt]
      _ = { p with count := p.count - (n + 1) } := by
            congr 1
            omega

theorem finishN_success (k : Nat) :
    ∀ p : CtrlPoint, p.fut = FState.pending → p.count = k + 1 →
      (finishN (k + 1) p).fut = FState.success := by
  induction k with
  | zero =>
    intro p hp hc
    have : CtrlPoint.finish none p = { p with count := 0, fut := FState.success } := by
      simp [CtrlPoint.finish, hp, hc]
    simp [finishN, this]
  | succ n ih =>
    intro p hp hc
    have h2 : p.count - 1 ≠ 0 := by omega
    have hstep : CtrlPoint.finish none p = { p with count := p.count - 1 } := by
      simp [CtrlPoint.finish, hp, hc, h2]
    have : finishN (n + 1 + 1) p = finishN (n + 1) { p with count := p.count - 1 } := by
      rw [show finishN (n + 1 + 1) p = finishN (n + 1) (CtrlPoint.finish none p) from rfl,
        hstep]
    rw [this]
    exact ih _ (by simp [hp]) (by simp [hc])

/-- C1.  A `_CtrlPoint` with `k > 0` registered incoming actions (fan-in
counter `k`) resolves successfully exactly on the `k`-th successful
`finish`; a `finish` carrying an exception resolves it as failed at once,
regardless of the counter; once the point is resolved in any way
(success, failure or cancellation), every later `finish` or `cancel` is a
no-op; and `add_previous` with a fresh non-empty id is what increments
the fan-in counter by one per registered action. -/
theorem ctrl_point_resolution (p : CtrlPoint) (k : Nat) (hk : 0 < k)
    (hfut : p.fut = FState.pending) (hcount : p.count = k) :
    (finishN k p).fut = FState.success ∧
    (∀ j, j < k → (finishN j p).fut = FState.pending) ∧
    (∀ e, (CtrlPoint.finish (some e) p).fut = FState.failedExc e) ∧
    (∀ q : CtrlPoint, q.fut ≠ FState.pending →
      (∀ x, CtrlPoint.finish x q = q) ∧ (∀ src, CtrlPoint.cancel src q = q)) ∧
    (∀ (q : CtrlPoint) (id : String), ¬(id = "" ∨ id ∈ q.previous) →
      CtrlPoint.add_previous id q =
        .ok { q with previous := q.previous ++ [id], count := q.count + 1 }) := by
  refine ⟨?_, ?_, ?_, ?_, ?_⟩
  · obtain ⟨m, rfl⟩ : ∃ m, k = m + 1 := ⟨k - 1, by omega⟩
    exact finishN_success m p hfut hcount
  · intro j hj
    rw [finishN_pending j p hfut (by omega)]
    exact hfut
  · intro e
    simp [CtrlPoint.finish, hfut]
  · intro q hq
    constructor
    · intro x
      simp [CtrlPoint.finish, hq]
    · intro src
      simp [CtrlPoint.cancel, hq]
  · intro q id hid
    simp [CtrlPoint.add_previous, hid]

/-- A concrete control point with two registered incoming actions, used
as the C1 witness input. -/
def cpTwo : CtrlPoint :=
  { fut := FState.pending, count := 2, previous := ["a", "b"], posts := [] }

/-- Witness for C1 at a concrete point with two registered incoming
actions. -/
theorem ctrl_point_resolution_witness :
    (0 < 2 ∧ cpTwo.fut = FState.pending ∧ cpTwo.count = 2) ∧
    (finishN 2 cpTwo).fut = FState.success ∧
    (finishN 1 cpTwo).fut = FState.pending := by
  have h := ctrl_point_resolution cpTwo 2 (by decide) rfl rfl
  exact ⟨⟨by decide, rfl, rfl⟩, h.1, h.2.1 1 (by decide)⟩

/-- A Python value passed as an `Action.__init__` argument, as far as the
constructor's coercions can distinguish them. -/
inductive PyVal where
  | noneV
  | boolV (b : Bool)
  | intV (n : Int)
  | strV (s : String)
deriving DecidableEq, Repr

/-- Python `str()` on the modelled values. -/
def pyStr : PyVal → String
  | .noneV => "None"
  | .boolV true => "True"
  | .boolV false => "False"
  | .intV n => toString n
  | .strV s => s

/-- The `to_thread if isinstance(to_thread, bool) else False` coercion in
`Action.__init__` (base.py). -/
def pyToThread : PyVal → Bool
  | .boolV b => b
  | _ => false

/-- `Action` (base.py) after construction: the stored, string-coerced
point keys and the thread flag.  The callable body `(func, args, kwargs)`
is opaque to the scheduler and is represented only where a claim needs
it; the class exposes read-only properties and no mutators. -/
structure Action where
  begin_point : String
  end_point : String
  to_thread : Bool
deriving DecidableEq, Repr

/-- `Action.__init__` (base.py): coerces `begin_point`/`end_point` with
`str(...)`, silently coerces a non-bool `to_thread` to `False`, and
raises `TypeError` iff `func` is not callable (`funcCallable` models the
`isinstance(func, Callable)` test). -/
def Action.init (beginV endV threadV : PyVal) (funcCallable : Bool) :
    Except PyErr Action :=
  if funcCallable then
    .ok { begin_point := pyStr beginV, end_point := pyStr endV,
          to_thread := pyToThread threadV }
  else
    .error (.typeError "Action is not callable")

/-- `_ActionRunner` (impl_scheduler.py) as stored in the scheduler's
runner map: its action, the `_status`/`_exp` fields and whether the
hosting task is done.  The asynchronous body itself is opaque. -/
structure Runner where
  action : Action
  status : Option Bool
  exp : Option PyErr
  done : Bool
deriving DecidableEq, Repr

/-- `_ActionRunner.cancel`: on a runner whose task is not yet done, marks
the runner failed with a cancellation and requests task cancellation;
otherwise a no-op. -/
def Runner.cancel (r : Runner) : Runner :=
  if r.done = false then
    { r with status := some false, exp := some PyErr.cancelledError }
  else r

/-- Injective generator standing in for `uuid.uuid4()` point keys: the
source assumes uuid4 keys never collide and are never empty. -/
def pointKey (n : Nat) : String :=
  String.mk (List.replicate (n + 1) 'p')

/-- Injective generator standing in for `uuid.uuid4()` runner ids. -/
def runnerKey (n : Nat) : String :=
  String.mk (List.replicate (n + 1) 'r')

theorem pointKey_length (n : Nat) : (pointKey n).length = n + 1 := by
  simp [pointKey, String.length]

theorem runnerKey_length (n : Nat) : (runnerKey n).length = n + 1 := by
  simp [runnerKey, String.length]

theorem pointKey_injective : Function.Injective pointKey := by
  intro a b h
  have : (pointKey a).length = (pointKey b).length := by rw [h]
  rw [pointKey_length, pointKey_length] at this
  omega

/-- First-match lookup in an association list, the model of
`dict.get(key, None)` on `_SchedulerImpl._points` (insertion order,
unique keys in every reachable state). -/
def lookupPoint (k : String) : List (String × CtrlPoint) → Option CtrlPoint
  | [] => none
  | kv :: rest => if kv.1 = k then some kv.2 else lookupPoint k rest

/-- Replacing the value stored under a key, the model of in-place
mutation of the `_CtrlPoint` object held in `_points[k]`. -/
def updatePoints : List (String × CtrlPoint) → String → CtrlPoint →
    List (String × CtrlPoint)
  | [], _, _ => []
  | kv :: rest, k, p =>
    (if kv.1 = k then (kv.1, p) else kv) :: updatePoints rest k p

/-- Applying a fallible mutation to the point stored under `k`, if any:
the model of `if isinstance(prev, _CtrlPoint): prev.add_post(...)` style
guarded mutation of a looked-up point. -/
def modifyPoint (pts : List (String × CtrlPoint)) (k : String)
    (f : CtrlPoint → Except PyErr CtrlPoint) :
    Except PyErr (List (String × CtrlPoint)) :=
  match lookupPoint k pts with
  | none => .ok pts
  | some p =>
    match f p with
    | .error e => .error e
    | .ok q => .ok (updatePoints pts k q)

/-- `_SchedulerImpl` state: the live point map, the live runner map, the
running flag, and the fresh-id counters standing in for uuid4 draws. -/
structure Sched where
  points : List (String × CtrlPoint)
  runners : List (String × Runner)
  running : Bool
  nextPoint : Nat
  nextRunner : Nat
deriving DecidableEq, Repr

/-- `_SchedulerImpl.start`: sets the running flag; always reports
success. -/
def Sched.start (s : Sched) : Sched × Bool :=
  ({ s with running := true }, true)

/-- `_SchedulerImpl.is_running`. -/
def Sched.is_running (s : Sched) : Bool :=
  s.running

/-- The freshly constructed `_CtrlPoint` of `acquire_point`: an
unresolved future and zero registered actions. -/
def newCtrlPoint : CtrlPoint :=
  { fut := FState.pending, count := 0, previous := [], posts := [] }

/-- `_SchedulerImpl.acquire_point`: creates a fresh point, registers it
under its new key, and returns the key. -/
def Sched.acquire_point (s : Sched) : Sched × String :=
  ({ s with
      points := s.points ++ [(pointKey s.nextPoint, newCtrlPoint)],
      nextPoint := s.nextPoint + 1 }, pointKey s.nextPoint)

/-- The loop body of `Scheduler.acquire_points` (base.py): `count`
successive `acquire_point` calls, collecting the keys in order. -/
def Sched.acquireN : Nat → Sched → Sched × List String
  | 0, s => (s, [])
  | n + 1, s =>
    let t := Sched.acquire_point s
    let u := Sched.acquireN n t.1
    (u.1, t.2 :: u.2)

/-- `Scheduler.acquire_points` (base.py): for `int(count) > 0` performs
that many single acquisitions; otherwise raises `TypeError` before
touching any state. -/
def Sched.acquire_points (s : Sched) (count : Int) :
    Except PyErr (Sched × List String) :=
  if 0 < count then
    .ok (Sched.acquireN count.toNat s)
  else
    .error (.typeError "Invalid count of points")

/-- `_SchedulerImpl.commit_action`: returns `False` untouched when not
running; raises `ValueError` when a non-empty begin/end key is not a live
point; otherwise constructs an `_ActionRunner` (which registers itself
with `prev.add_post` and `post.add_previous`), stores it in the runner
map and returns `True`. -/
def Sched.commit_action (s : Sched) (a : Action) :
    Except PyErr (Sched × Bool) :=
  if s.running = false then .ok (s, false)
  else if 0 < a.begin_point.length ∧ lookupPoint a.begin_point s.points = none then
    .error (.valueError "Invalid begin point")
  else if 0 < a.end_point.length ∧ lookupPoint a.end_point s.points = none then
    .error (.valueError "Invalid end point")
  else
    match modifyPoint s.points a.begin_point
        (CtrlPoint.add_post (runnerKey s.nextRunner)) with
    | .error e => .error e
    | .ok pts1 =>
      match modifyPoint pts1 a.end_point
          (CtrlPoint.add_previous (runnerKey s.nextRunner)) with
      | .error e => .error e
      | .ok pts2 =>
        .ok ({ s with
                points := pts2,
                runners := s.runners ++
                  [(runnerKey s.nextRunner,
                    { action := a, status := none, exp := none, done := false })],
                nextRunner := s.nextRunner + 1 }, true)

/-- `_SchedulerImpl.wait_point` with `timeout=None`: raises
`RuntimeError` when the scheduler is not running and `ValueError` on an
empty or unknown key; on a point that is already done it returns the
`status` property of that point; otherwise it drives the loop through
`_CtrlPoint.wait` (propagating what that raises) and then returns the
`status` of the now-resolved point. -/
def Sched.wait_point (s : Sched) (key : String) (eventual : Resolution) :
    Except PyErr (Option Bool) :=
  if s.running = false then .error (.runtimeError "Scheduler is not running")
  else if key.length = 0 then .error (.valueError "Key of point is empty")
  else
    match lookupPoint key s.points with
    | none => .error (.valueError "Invalid point key")
    | some p =>
      if CtrlPoint.is_done p then CtrlPoint.status p
      else
        match CtrlPoint.wait eventual p with
        | .error e => .error e
        | .ok _ => fstatus eventual.toState

/-- `_SchedulerImpl.stop`: cancels every live runner, then every live
point, clears both maps and drops the running flag.  The returned lists
are the cancelled runner and point objects as any outside holder of a
reference observes them after the teardown. -/
def Sched.stop (s : Sched) : Sched × List Runner × List CtrlPoint :=
  ({ s with runners := [], points := [], running := false },
   s.runners.map (fun kv => Runner.cancel kv.2),
   s.points.map (fun kv => CtrlPoint.cancel "scheduler" kv.2))

/-- `_SchedulerImpl.clear_done_points`: drops every point whose future is
resolved. -/
def Sched.clear_done_points (s : Sched) : Sched :=
  { s with points := s.points.filter (fun kv => ¬CtrlPoint.is_done kv.2) }

/-- C10.  `Action.__init__` raises `TypeError` iff `func` is not
callable; a non-bool `to_thread` argument is silently coerced to
`False`; the point-key arguments are coerced with `str(...)`.  The
resulting object exposes only read-only properties (here: an immutable
structure). -/
theorem action_init_spec (beginV endV threadV : PyVal) (c : Bool) :
    (Action.init beginV endV threadV c =
      .error (PyErr.typeError "Action is not callable") ↔ c = false) ∧
    (c = true → Action.init beginV endV threadV c =
      .ok { begin_point := pyStr beginV, end_point := pyStr endV,
            to_thread := pyToThread threadV }) ∧
    ((∀ b : Bool, threadV ≠ PyVal.boolV b) → pyToThread threadV = false) := by
  refine ⟨?_, ?_, ?_⟩
  · cases c <;> simp [Action.init]
  · intro hc
    simp [Action.init, hc]
  · intro hb
    cases threadV with
    | boolV b => exact absurd rfl (hb b)
    | noneV => rfl
    | intV n => rfl
    | strV s => rfl

/-- Witness for C10 at concrete constructor arguments. -/
theorem action_init_spec_witness :
    Action.init (PyVal.strV "x") (PyVal.intV 3) (PyVal.intV 1) true =
      .ok { begin_point := "x", end_point := "3", to_thread := false } ∧
    Action.init (PyVal.strV "x") (PyVal.intV 3) (PyVal.intV 1) false =
      .error (PyErr.typeError "Action is not callable") := by
  constructor
  · exact (action_init_spec (PyVal.strV "x") (PyVal.intV 3)
      (PyVal.intV 1) true).2.1 rfl
  · exact (action_init_spec (PyVal.strV "x") (PyVal.intV 3)
      (PyVal.intV 1) false).1.mpr rfl

/-- A live pending point with one registered incoming action: the state
of a point a committed action will finish while a caller waits on it. -/
def cpLive : CtrlPoint :=
  { fut := FState.pending, count := 1, previous := ["r"], posts := [] }

/-- A running scheduler holding `cpLive` under `pointKey 0`. -/
def schedLive : Sched :=
  { points := [(pointKey 0, cpLive)], runners := [], running := true,
    nextPoint := 1, nextRunner := 0 }

/-- A point that was already cancelled before the caller waits on it. -/
def cpDoneCancelled : CtrlPoint :=
  { fut := FState.cancelled, count := 1, previous := ["r"], posts := [] }

/-- A running scheduler holding the already-cancelled point. -/
def schedDoneCancelled : Sched :=
  { points := [(pointKey 0, cpDoneCancelled)], runners := [], running := true,
    nextPoint := 1, nextRunner := 0 }

/-- A point already resolved with a stored exception before the wait. -/
def cpDoneFailed : CtrlPoint :=
  { fut := FState.failedExc (PyErr.exc 0), count := 0, previous := ["r"],
    posts := [] }

/-- A running scheduler holding the already-failed point. -/
def schedDoneFailed : Sched :=
  { points := [(pointKey 0, cpDoneFailed)], runners := [], running := true,
    nextPoint := 1, nextRunner := 0 }

/-- C2, evaluated at the failing inputs.  On a running scheduler with a
known key, `wait_point` (and `_CtrlPoint.wait`) re-raises the stored
exception when the point fails while the caller is suspended, and raises
`CancelledError` when the point was already cancelled — contradicting
the claim (and `wait_point`'s own docstring) that a failed resolution is
returned as the value `False`.  Only the already-failed-with-exception
timing returns `False` as documented; the success path returns `True`. -/
theorem wait_point_raises_on_failed_resolution :
    Sched.wait_point schedLive (pointKey 0) (Resolution.failedExc (PyErr.exc 0)) =
      .error (PyErr.exc 0) ∧
    CtrlPoint.wait (Resolution.failedExc (PyErr.exc 0)) cpLive =
      .error (PyErr.exc 0) ∧
    Sched.wait_point schedLive (pointKey 0) Resolution.cancelled =
      .error PyErr.cancelledError ∧
    Sched.wait_point schedDoneCancelled (pointKey 0) Resolution.success =
      .error PyErr.cancelledError ∧
    Sched.wait_point schedDoneFailed (pointKey 0) Resolution.success =
      .ok (some false) ∧
    Sched.wait_point schedLive (pointKey 0) Resolution.success =
      .ok (some true) := by
  refine ⟨rfl, rfl, rfl, rfl, rfl, rfl⟩

/-- C8.  `stop()` unconditionally cancels every live runner and then
every live point, clears both maps and drops the running flag; every
runner whose task was in flight observes a failed status with a
cancellation, and every unresolved point observes a cancelled future. -/
theorem stop_spec (s : Sched) :
    (Sched.stop s).1.running = false ∧
    (Sched.stop s).1.points = [] ∧
    (Sched.stop s).1.runners = [] ∧
    (Sched.stop s).2.1.length = s.runners.length ∧
    (Sched.stop s).2.2.length = s.points.length ∧
    (∀ kv ∈ s.runners, Runner.cancel kv.2 ∈ (Sched.stop s).2.1 ∧
      (kv.2.done = false →
        (Runner.cancel kv.2).status = some false ∧
        (Runner.cancel kv.2).exp = some PyErr.cancelledError)) ∧
    (∀ kv ∈ s.points, CtrlPoint.cancel "scheduler" kv.2 ∈ (Sched.stop s).2.2 ∧
      (kv.2.fut = FState.pending →
        (CtrlPoint.cancel "scheduler" kv.2).fut = FState.cancelled)) := by
  refine ⟨rfl, rfl, rfl, by simp [Sched.stop], by simp [Sched.stop], ?_, ?_⟩
  · intro kv hkv
    refine ⟨?_, ?_⟩
    · exact List.mem_map_of_mem (fun kv => Runner.cancel kv.2) hkv
    · intro hdone
      constructor <;> simp [Runner.cancel, hdone]
  · intro kv hkv
    refine ⟨?_, ?_⟩
    · exact List.mem_map_of_mem (fun kv => CtrlPoint.cancel "scheduler" kv.2) hkv
    · intro hfut
      simp [CtrlPoint.cancel, hfut]

/-- A scheduler with one in-flight runner and one pending point, the C8
witness input. -/
def schedBusy : Sched :=
  { points := [(pointKey 0, cpLive)],
    runners := [(runnerKey 0,
      { action := { begin_point := "", end_point := pointKey 0,
                    to_thread := false },
        status := none, exp := none, done := false })],
    running := true, nextPoint := 1, nextRunner := 1 }

/-- Witness for C8 on `schedBusy`. -/
theorem stop_spec_witness :
    (Sched.stop schedBusy).1.running = false ∧
    (Sched.stop schedBusy).1.points = [] ∧
    (Sched.stop schedBusy).1.runners = [] ∧
    (∀ kv ∈ schedBusy.runners, Runner.cancel kv.2 ∈ (Sched.stop schedBusy).2.1 ∧
      (kv.2.done = false →
        (Runner.cancel kv.2).status = some false ∧
        (Runner.cancel kv.2).exp = some PyErr.cancelledError)) ∧
    (∀ kv ∈ schedBusy.points,
      CtrlPoint.cancel "scheduler" kv.2 ∈ (Sched.stop schedBusy).2.2 ∧
      (kv.2.fut = FState.pending →
        (CtrlPoint.cancel "scheduler" kv.2).fut = FState.cancelled)) := by
  have h := stop_spec schedBusy
  exact ⟨h.1, h.2.1, h.2.2.1, h.2.2.2.2.2.1, h.2.2.2.2.2.2⟩

theorem lookupPoint_mem {k : String} :
    ∀ {pts : List (String × CtrlPoint)} {p : CtrlPoint},
      lookupPoint k pts = some p → (k, p) ∈ pts := by
  intro pts
  induction pts with
  | nil => intro p h; cases h
  | cons kv rest ih =>
    intro p h
    by_cases hk : kv.1 = k
    · simp only [lookupPoint, if_pos hk] at h
      have hp : p = kv.2 := by
        injection h with h2
        exact h2.symm
      subst hp
      rw [← hk]
      exact List.mem_cons_self _ _
    · simp only [lookupPoint, if_neg hk] at h
      exact List.mem_cons_of_mem _ (ih h)

theorem mem_updatePoints :
    ∀ {pts : List (String × CtrlPoint)} {k0 : String} {q : CtrlPoint}
      {kv : String × CtrlPoint},
      kv ∈ updatePoints pts k0 q → kv.2 = q ∨ kv ∈ pts := by
  intro pts
  induction pts with
  | nil => intro k0 q kv h; cases h
  | cons kv0 rest ih =>
    intro k0 q kv h
    simp only [updatePoints] at h
    rcases List.mem_cons.mp h with h1 | h1
    · by_cases hk : kv0.1 = k0
      · rw [if_pos hk] at h1
        left
        rw [h1]
      · rw [if_neg hk] at h1
        right
        exact h1 ▸ List.mem_cons_self _ _
    · rcases ih h1 with h2 | h2
      · exact Or.inl h2
      · exact Or.inr (List.mem_cons_of_mem _ h2)

theorem lookupPoint_updatePoints_self :
    ∀ {pts : List (String × CtrlPoint)} {k0 : String} {p q : CtrlPoint},
      lookupPoint k0 pts = some p →
      lookupPoint k0 (updatePoints pts k0 q) = some q := by
  intro pts
  induction pts with
  | nil => intro k0 p q h; cases h
  | cons kv rest ih =>
    intro k0 p q h
    by_cases hk : kv.1 = k0
    · simp [lookupPoint, updatePoints, hk]
    · simp only [lookupPoint, if_neg hk] at h
      simp only [updatePoints, if_neg hk, lookupPoint]
      exact ih h

theorem lookupPoint_updatePoints_ne {k0 k : String} (h : k ≠ k0) :
    ∀ {pts : List (String × CtrlPoint)} {q : CtrlPoint},
      lookupPoint k (updatePoints pts k0 q) = lookupPoint k pts := by
  intro pts
  induction pts with
  | nil => intro q; rfl
  | cons kv rest ih =>
    intro q
    by_cases hk : kv.1 = k0
    · have h1 : kv.1 ≠ k := by
        rw [hk]
        exact fun hc => h hc.symm
      simp only [updatePoints, if_pos hk, lookupPoint]
      rw [if_neg h1, if_neg h1]
      exact ih
    · simp only [updatePoints, if_neg hk, lookupPoint]
      by_cases hk2 : kv.1 = k
      · rw [if_pos hk2, if_pos hk2]
      · rw [if_neg hk2, if_neg hk2]
        exact ih

theorem runnerKey_ne_empty (n : Nat) : runnerKey n ≠ "" := by
  intro h
  have := runnerKey_length n
  rw [h] at this
  simp [String.length] at this

/-- C3.  `commit_action` on a stopped scheduler returns `False` with the
state untouched; on a running scheduler it raises `ValueError` whenever
the action carries a non-empty begin or end key that is not a live
point; and when every non-empty key names a live point it registers
exactly one new runner (under a fresh runner id) and returns `True`.
`hfresh` states that the freshly drawn runner id is not yet registered
with any live point, which the source guarantees by drawing uuid4 ids. -/
theorem commit_action_spec (s : Sched) (a : Action)
    (hfresh : ∀ kv ∈ s.points,
      runnerKey s.nextRunner ∉ kv.2.previous ∧
      runnerKey s.nextRunner ∉ kv.2.posts) :
    (s.running = false → Sched.commit_action s a = .ok (s, false)) ∧
    (s.running = true →
      ((0 < a.begin_point.length ∧ lookupPoint a.begin_point s.points = none) ∨
       (0 < a.end_point.length ∧ lookupPoint a.end_point s.points = none)) →
      ∃ msg, Sched.commit_action s a = .error (PyErr.valueError msg)) ∧
    (s.running = true →
      ¬(0 < a.begin_point.length ∧ lookupPoint a.begin_point s.points = none) →
      ¬(0 < a.end_point.length ∧ lookupPoint a.end_point s.points = none) →
      ∃ s2, Sched.commit_action s a = .ok (s2, true) ∧
        s2.running = true ∧
        s2.runners.map Prod.fst =
          s.runners.map Prod.fst ++ [runnerKey s.nextRunner] ∧
        s2.runners.length = s.runners.length + 1) := by
  refine ⟨?_, ?_, ?_⟩
  · intro h
    simp [Sched.commit_action, h]
  · intro hrun hbad
    by_cases hb : 0 < a.begin_point.length ∧ lookupPoint a.begin_point s.points = none
    · exact ⟨"Invalid begin point", by simp [Sched.commit_action, hrun, hb]⟩
    · have he : 0 < a.end_point.length ∧ lookupPoint a.end_point s.points = none := by
        rcases hbad with h | h
        · exact absurd h hb
        · exact h
      exact ⟨"Invalid end point", by simp [Sched.commit_action, hrun, hb, he]⟩
  · intro hrun hb he
    have hne := runnerKey_ne_empty s.nextRunner
    obtain ⟨pts1, hpts1, hmem1⟩ :
        ∃ pts1, modifyPoint s.points a.begin_point
            (CtrlPoint.add_post (runnerKey s.nextRunner)) = .ok pts1 ∧
          ∀ kv ∈ pts1, runnerKey s.nextRunner ∉ kv.2.previous := by
      cases hlb : lookupPoint a.begin_point s.points with
      | none =>
        refine ⟨s.points, by simp [modifyPoint, hlb], ?_⟩
        intro kv hkv
        exact (hfresh kv hkv).1
      | some p =>
        have hp := hfresh _ (lookupPoint_mem hlb)
        have hpost : CtrlPoint.add_post (runnerKey s.nextRunner) p =
            .ok { p with posts := p.posts ++ [runnerKey s.nextRunner] } := by
          simp [CtrlPoint.add_post, hne, hp.2]
        refine ⟨updatePoints s.points a.begin_point
          { p with posts := p.posts ++ [runnerKey s.nextRunner] },
          by simp [modifyPoint, hlb, hpost], ?_⟩
        intro kv hkv
        rcases mem_updatePoints hkv with hq | hold
        · rw [hq]
          exact hp.1
        · exact (hfresh kv hold).1
    obtain ⟨pts2, hpts2⟩ :
        ∃ pts2, modifyPoint pts1 a.end_point
            (CtrlPoint.add_previous (runnerKey s.nextRunner)) = .ok pts2 := by
      cases hle : lookupPoint a.end_point pts1 with
      | none => exact ⟨pts1, by simp [modifyPoint, hle]⟩
      | some p2 =>
        have hprev : runnerKey s.nextRunner ∉ p2.previous :=
          hmem1 _ (lookupPoint_mem hle)
        refine ⟨updatePoints pts1 a.end_point
          { p2 with previous := p2.previous ++ [runnerKey s.nextRunner],
                    count := p2.count + 1 }, ?_⟩
        simp [modifyPoint, hle, CtrlPoint.add_previous, hne, hprev]
    refine ⟨{ s with
        points := pts2,
        runners := s.runners ++
          [(runnerKey s.nextRunner,
            { action := a, status := none, exp := none, done := false })],
        nextRunner := s.nextRunner + 1 }, ?_, hrun, by simp, by simp⟩
    simp [Sched.commit_action, hrun, hb, he, hpts1, hpts2]

/-- A running scheduler with one live pending point and no runners, used
as the C3 witness input. -/
def schedOnePoint : Sched :=
  { points := [(pointKey 0, newCtrlPoint)], runners := [], running := true,
    nextPoint := 1, nextRunner := 0 }

/-- Witness for C3: committing an action from no predecessor into the
live point succeeds; committing one onto an unknown key raises. -/
theorem commit_action_spec_witness :
    (∃ s2, Sched.commit_action schedOnePoint
        { begin_point := "", end_point := pointKey 0, to_thread := false } =
        .ok (s2, true) ∧
      s2.running = true ∧
      s2.runners.map Prod.fst = [runnerKey 0] ∧
      s2.runners.length = 1) ∧
    (∃ msg, Sched.commit_action schedOnePoint
        { begin_point := "missing", end_point := "", to_thread := false } =
        .error (PyErr.valueError msg)) := by
  constructor
  · have h := (commit_action_spec schedOnePoint
      { begin_point := "", end_point := pointKey 0, to_thread := false }
      (by decide)).2.2 rfl (by decide) (by decide)
    obtain ⟨s2, h1, h2, h3, h4⟩ := h
    exact ⟨s2, h1, h2, by simpa using h3, by simpa using h4⟩
  · exact (commit_action_spec schedOnePoint
      { begin_point := "missing", end_point := "", to_thread := false }
      (by decide)).2.1 rfl (Or.inl (by decide))

theorem lookupPoint_append (k : String) :
    ∀ (xs ys : List (String × CtrlPoint)),
      lookupPoint k (xs ++ ys) =
        match lookupPoint k xs with
        | some v => some v
        | none => lookupPoint k ys := by
  intro xs ys
  induction xs with
  | nil => rfl
  | cons kv rest ih =>
    by_cases hk : kv.1 = k
    · simp [lookupPoint, hk]
    · simp only [List.cons_append, lookupPoint, if_neg hk]
      exact ih

theorem lookupPoint_eq_none {k : String} :
    ∀ {pts : List (String × CtrlPoint)},
      (∀ kv ∈ pts, kv.1 ≠ k) → lookupPoint k pts = none := by
  intro pts
  induction pts with
  | nil => intro _; rfl
  | cons kv rest ih =>
    intro h
    have h1 : kv.1 ≠ k := h kv (List.mem_cons_self _ _)
    simp only [lookupPoint, if_neg h1]
    exact ih (fun kv2 hkv2 => h kv2 (List.mem_cons_of_mem _ hkv2))

theorem acquireN_spec (n : Nat) :
    ∀ s : Sched,
      (Sched.acquireN n s).1.points = s.points ++
        (List.range n).map (fun i => (pointKey (s.nextPoint + i), newCtrlPoint)) ∧
      (Sched.acquireN n s).2 =
        (List.range n).map (fun i => pointKey (s.nextPoint + i)) ∧
      (Sched.acquireN n s).1.nextPoint = s.nextPoint + n ∧
      (Sched.acquireN n s).1.running = s.running ∧
      (Sched.acquireN n s).1.runners = s.runners := by
  induction n with
  | zero =>
    intro s
    simp [Sched.acquireN]
  | succ m ih =>
    intro s
    have hstep : Sched.acquireN (m + 1) s =
        ((Sched.acquireN m (Sched.acquire_point s).1).1,
         pointKey s.nextPoint :: (Sched.acquireN m (Sched.acquire_point s).1).2) := rfl
    have h := ih (Sched.acquire_point s).1
    have hnp : (Sched.acquire_point s).1.nextPoint = s.nextPoint + 1 := rfl
    have hpts : (Sched.acquire_point s).1.points =
        s.points ++ [(pointKey s.nextPoint, newCtrlPoint)] := rfl
    have hshift : ∀ (f : Nat → String × CtrlPoint),
        (List.range (m + 1)).map f = f 0 :: (List.range m).map (fun i => f (i + 1)) := by
      intro f
      rw [List.range_succ_eq_map, List.map_cons, List.map_map]
      rfl
    have hshift2 : ∀ (f : Nat → String),
        (List.range (m + 1)).map f = f 0 :: (List.range m).map (fun i => f (i + 1)) := by
      intro f
      rw [List.range_succ_eq_map, List.map_cons, List.map_map]
      rfl
    refine ⟨?_, ?_, ?_, ?_, ?_⟩
    · rw [hstep]
      dsimp only
      rw [h.1, hpts, hnp]
      rw [hshift (fun i => (pointKey (s.nextPoint + i), newCtrlPoint))]
      simp only [Nat.add_zero, List.append_assoc, List.singleton_append]
      congr 1
      congr 1
      apply List.map_congr_left
      intro i _
      have : s.nextPoint + 1 + i = s.nextPoint + (i + 1) := by omega
      rw [this]
    · rw [hstep]
      dsimp only
      rw [h.2.1, hnp]
      rw [hshift2 (fun i => pointKey (s.nextPoint + i))]
      simp only [Nat.add_zero]
      congr 1
      apply List.map_congr_left
      intro i _
      have : s.nextPoint + 1 + i = s.nextPoint + (i + 1) := by omega
      rw [this]
    · rw [hstep]
      dsimp only
      rw [h.2.2.1, hnp]
      omega
    · rw [hstep]
      dsimp only
      rw [h.2.2.2.1]
      rfl
    · rw [hstep]
      dsimp only
      rw [h.2.2.2.2]
      rfl

theorem lookupPoint_range_map {a : Nat} {c : CtrlPoint} :
    ∀ (l : List Nat) (i : Nat), i ∈ l →
      lookupPoint (pointKey (a + i))
        (l.map (fun j => (pointKey (a + j), c))) = some c := by
  intro l
  induction l with
  | nil => intro i h; cases h
  | cons j rest ih =>
    intro i hi
    by_cases hj : pointKey (a + j) = pointKey (a + i)
    · simp [lookupPoint, hj]
    · have : i ∈ rest := by
        rcases List.mem_cons.mp hi with h | h
        · exact absurd (by rw [h]) hj
        · exact h
      simp only [List.map_cons, lookupPoint, if_neg hj]
      exact ih i this

/-- C9.  For `n > 0`, `acquire_points(n)` returns exactly `n` pairwise
distinct keys, each strictly longer (hence different) than every
previously issued key, each registered as a live pending point in the
resulting state and absent from the starting state; for `n ≤ 0` it
raises before touching any state.  `hwf` is the reachable-state
invariant that every registered key was issued by an earlier counter
draw. -/
theorem acquire_points_spec (s : Sched) (n : Int)
    (hwf : ∀ kv ∈ s.points, kv.1.length ≤ s.nextPoint) :
    (0 < n → ∃ s2 ks, Sched.acquire_points s n = .ok (s2, ks) ∧
      ks.length = n.toNat ∧ ks.Nodup ∧
      (∀ k ∈ ks, s.nextPoint < k.length) ∧
      (∀ k ∈ ks, lookupPoint k s.points = none) ∧
      (∀ k ∈ ks, lookupPoint k s2.points = some newCtrlPoint)) ∧
    (n ≤ 0 → Sched.acquire_points s n =
      .error (PyErr.typeError "Invalid count of points")) := by
  constructor
  · intro hn
    obtain ⟨hpts, hks, hnp, -, -⟩ := acquireN_spec n.toNat s
    refine ⟨(Sched.acquireN n.toNat s).1, (Sched.acquireN n.toNat s).2,
      by simp [Sched.acquire_points, hn], ?_, ?_, ?_, ?_, ?_⟩
    · rw [hks]
      simp
    · rw [hks]
      refine List.Nodup.map ?_ (List.nodup_range n.toNat)
      intro x y hxy
      have := pointKey_injective hxy
      omega
    · intro k hk
      rw [hks] at hk
      obtain ⟨i, -, rfl⟩ := List.mem_map.mp hk
      rw [pointKey_length]
      omega
    · intro k hk
      rw [hks] at hk
      obtain ⟨i, -, rfl⟩ := List.mem_map.mp hk
      apply lookupPoint_eq_none
      intro kv hkv hcon
      have h1 := hwf kv hkv
      rw [hcon, pointKey_length] at h1
      omega
    · intro k hk
      rw [hks] at hk
      obtain ⟨i, hi, rfl⟩ := List.mem_map.mp hk
      rw [hpts, lookupPoint_append]
      have hnone : lookupPoint (pointKey (s.nextPoint + i)) s.points = none := by
        apply lookupPoint_eq_none
        intro kv hkv hcon
        have h1 := hwf kv hkv
        rw [hcon, pointKey_length] at h1
        omega
      rw [hnone]
      exact lookupPoint_range_map (List.range n.toNat) i (List.mem_range.mpr (List.mem_range.mp hi))
  · intro hn
    have : ¬(0 < n) := by omega
    simp [Sched.acquire_points, this]

/-- Witness for C9 on a scheduler that has already issued one point. -/
theorem acquire_points_spec_witness :
    (∃ s2 ks, Sched.acquire_points schedOnePoint 2 = .ok (s2, ks) ∧
      ks.length = 2 ∧ ks.Nodup ∧
      (∀ k ∈ ks, schedOnePoint.nextPoint < k.length) ∧
      (∀ k ∈ ks, lookupPoint k schedOnePoint.points = none) ∧
      (∀ k ∈ ks, lookupPoint k s2.points = some newCtrlPoint)) ∧
    Sched.acquire_points schedOnePoint 0 =
      .error (PyErr.typeError "Invalid count of points") := by
  have h := acquire_points_spec schedOnePoint 2 (by decide)
  constructor
  · obtain ⟨s2, ks, h1, h2, h3, h4, h5, h6⟩ := h.1 (by decide)
    exact ⟨s2, ks, h1, h2, h3, h4, h5, h6⟩
  · exact (acquire_points_spec schedOnePoint 0 (by decide)).2 (by decide)

/-- Modelled from the spec: a child of a composite process is an opaque
`Process` implementation, specified only by the commit/join/has-more
contract of section 4.4 ("`commit` must be non-blocking and idempotent
against being called while already pending (returns `False`)", "`join`
blocks until whatever was committed resolves and returns its
success/failure", "`has_more` must be callable at any time").  `work`
counts the remaining rounds of work (`has_more` is true while it is
positive, as for a `SimpleProcess` until its one unit finishes),
`commitRet` is whether the scheduler accepts the child's actions,
`joinRet` is the success/failure its `join` reports, and `init` is the
round count restored by `reset`.  `commits` and `joins` are ghost
counters recording how often the parent invoked `commit`/`join`. -/
structure Child where
  pending : Bool
  work : Nat
  commitRet : Bool
  joinRet : Bool
  init : Nat
  commits : Nat
  joins : Nat
deriving DecidableEq, Repr

/-- Modelled from the spec (section 4.4): `has_more` of a child process. -/
def Child.has_more (c : Child) : Bool :=
  decide (0 < c.work)

/-- Modelled from the spec (section 4.4): `commit` on a child process —
refused while pending or exhausted, otherwise the child becomes pending
when the scheduler accepts its actions.  The ghost counter records the
invocation. -/
def Child.commit (c : Child) : Child × Bool :=
  if c.pending = false ∧ 0 < c.work then
    if c.commitRet then
      ({ c with pending := true, commits := c.commits + 1 }, true)
    else
      ({ c with commits := c.commits + 1 }, false)
  else
    ({ c with commits := c.commits + 1 }, false)

/-- Modelled from the spec (section 4.4): `join` on a child process —
waits out a pending round (consuming one unit of work) and reports the
round's success/failure.  The ghost counter records the invocation. -/
def Child.join (c : Child) : Child × Bool :=
  if c.pending then
    ({ c with pending := false, work := c.work - 1, joins := c.joins + 1 },
     c.joinRet)
  else
    ({ c with joins := c.joins + 1 }, c.joinRet)

/-- Modelled from the spec (section 4.4): `reset` restores the initial
state (ghost counters are instrumentation and are kept). -/
def Child.reset (c : Child) : Child :=
  { c with pending := false, work := c.init }

/-- `ParallelProcess.join` (process.py): `rst = False`; for every child,
if it is pending, join it and set `rst` on a successful join; return
`rst`. -/
def parallelJoin : List Child → List Child × Bool
  | [] => ([], false)
  | c :: cs =>
    if c.pending then
      ((Child.join c).1 :: (parallelJoin cs).1,
       (parallelJoin cs).2 || (Child.join c).2)
    else
      (c :: (parallelJoin cs).1, (parallelJoin cs).2)

/-- `ParallelProcess.commit` (process.py): commits every child that is
neither pending nor exhausted; returns whether any child accepted. -/
def parallelCommit : List Child → List Child × Bool
  | [] => ([], false)
  | c :: cs =>
    if c.pending ∨ ¬(Child.has_more c = true) then
      (c :: (parallelCommit cs).1, (parallelCommit cs).2)
    else
      ((Child.commit c).1 :: (parallelCommit cs).1,
       (parallelCommit cs).2 || (Child.commit c).2)

/-- `ParallelProcess.is_pending` (process.py). -/
def parallelIsPending (cs : List Child) : Bool :=
  cs.any Child.pending

/-- A pending child whose join reports failure. -/
def childFailing : Child :=
  { pending := true, work := 1, commitRet := true, joinRet := false,
    init := 1, commits := 1, joins := 0 }

/-- A pending child whose join reports success. -/
def childSucceeding : Child :=
  { pending := true, work := 1, commitRet := true, joinRet := true,
    init := 1, commits := 1, joins := 0 }

/-- The C4 counterexample input: two pending children, one failing and
one succeeding. -/
def parallelPair : List Child :=
  [childFailing, childSucceeding]

/-- C4 counterexample.  With two pending children of which one join
reports failure and the other success, `ParallelProcess.join` returns
`True` — so "returns true iff none of the pending children's joins
report failure" is false on the code: the loop starts from `rst = False`
and sets it on any successful join, implementing "at least one pending
child succeeded", not "no pending child failed". -/
theorem parallel_join_claim_counterexample :
    ¬(((parallelJoin parallelPair).2 = true) ↔
      (∀ c ∈ parallelPair, c.pending = true → c.joinRet = true)) := by
  decide

/-- C4 as amended.  `ParallelProcess.join` joins every currently pending
child (each pending child's `join` is invoked exactly once, non-pending
children are untouched), and returns `True` iff at least one pending
child's join reported success — in particular it returns `False` when no
child is pending, and one failing child does not make the result `False`
while some other pending child succeeds. -/
theorem parallel_join_amended (cs : List Child) :
    ((parallelJoin cs).2 = true ↔
      ∃ c ∈ cs, c.pending = true ∧ c.joinRet = true) ∧
    (parallelJoin cs).1 =
      cs.map (fun c => if c.pending then (Child.join c).1 else c) := by
  induction cs with
  | nil => simp [parallelJoin]
  | cons c rest ih =>
    by_cases hp : c.pending
    · constructor
      · simp only [parallelJoin, if_pos hp, Bool.or_eq_true]
        constructor
        · intro h
          rcases h with h | h
          · obtain ⟨c2, hc2, hc3⟩ := ih.1.mp h
            exact ⟨c2, List.mem_cons_of_mem _ hc2, hc3⟩
          · refine ⟨c, List.mem_cons_self _ _, hp, ?_⟩
            simp [Child.join, hp] at h
            exact h
        · intro ⟨c2, hc2, hc3, hc4⟩
          rcases List.mem_cons.mp hc2 with h | h
          · right
            subst h
            simp [Child.join, hp, hc4]
          · left
            exact ih.1.mpr ⟨c2, h, hc3, hc4⟩
      · simp only [parallelJoin, if_pos hp, List.map_cons]
        rw [ih.2]
    · constructor
      · simp only [parallelJoin, if_neg hp]
        constructor
        · intro h
          obtain ⟨c2, hc2, hc3⟩ := ih.1.mp h
          exact ⟨c2, List.mem_cons_of_mem _ hc2, hc3⟩
        · intro ⟨c2, hc2, hc3, hc4⟩
          rcases List.mem_cons.mp hc2 with h | h
          · subst h
            exact absurd hc3 (by simpa using hp)
          · exact ih.1.mpr ⟨c2, h, hc3, hc4⟩
      · simp only [parallelJoin, if_neg hp, List.map_cons]
        rw [ih.2]

/-- Witness for the amended C4 on the counterexample pair: the join
returns `True` because the succeeding child is pending, and both pending
children get joined. -/
theorem parallel_join_amended_witness :
    ((parallelJoin parallelPair).2 = true ↔
      ∃ c ∈ parallelPair, c.pending = true ∧ c.joinRet = true) ∧
    (parallelJoin parallelPair).1 =
      parallelPair.map (fun c => if c.pending then (Child.join c).1 else c) :=
  parallel_join_amended parallelPair

/-- `SeriesProcess` state (process.py): the ordered children and the
internal index `_index`. -/
structure Series where
  children : List Child
  index : Nat
deriving DecidableEq, Repr

/-- The `while self._index < len(self)` loop of `SeriesProcess.commit`:
return `False` if the current child is pending, skip a child with no
more work, otherwise commit the current child and return its result;
`False` once all children are passed.  The loop advances the index by
one per pass, so any `fuel ≥ len - index` makes the model exact. -/
def seriesCommitAux : Nat → List Child → Nat → Nat × List Child × Bool
  | 0, cs, i => (i, cs, false)
  | fuel + 1, cs, i =>
    match cs.get? i with
    | none => (i, cs, false)
    | some c =>
      if c.pending then (i, cs, false)
      else if Child.has_more c = false then seriesCommitAux fuel cs (i + 1)
      else (i, cs.set i (Child.commit c).1, (Child.commit c).2)

/-- `SeriesProcess.commit`. -/
def Series.commit (s : Series) : Series × Bool :=
  ((⟨(seriesCommitAux (s.children.length + 1) s.children s.index).2.1,
     (seriesCommitAux (s.children.length + 1) s.children s.index).1⟩ : Series),
   (seriesCommitAux (s.children.length + 1) s.children s.index).2.2)

/-- `SeriesProcess.is_pending`: whether the current child is pending. -/
def Series.is_pending (s : Series) : Bool :=
  match s.children.get? s.index with
  | some c => c.pending
  | none => false

/-- `SeriesProcess.join`: joins the current child if it is pending,
otherwise returns `True`. -/
def Series.join (s : Series) : Series × Bool :=
  match s.children.get? s.index with
  | none => (s, true)
  | some c =>
    if c.pending then
      ({ s with children := s.children.set s.index (Child.join c).1 },
       (Child.join c).2)
    else (s, true)

/-- `SeriesProcess.has_more`. -/
def Series.has_more (s : Series) : Bool :=
  match s.children.get? s.index with
  | none => false
  | some c =>
    if c.pending ∨ Child.has_more c = true then true
    else decide (s.index < s.children.length - 1)

/-- `SeriesProcess.reset`: resets every child and rewinds the index. -/
def Series.reset (s : Series) : Series :=
  ⟨s.children.map Child.reset, 0⟩

/-- The operations a caller can perform on a `SeriesProcess`. -/
inductive SOp where
  | commit
  | join
  | reset
deriving DecidableEq, Repr

/-- One caller operation on a `SeriesProcess` (result values dropped). -/
def Series.step : SOp → Series → Series
  | SOp.commit, s => (Series.commit s).1
  | SOp.join, s => (Series.join s).1
  | SOp.reset, s => Series.reset s

/-- A sequence of caller operations on a `SeriesProcess`. -/
def Series.run : List SOp → Series → Series
  | [], s => s
  | op :: ops, s => Series.run ops (Series.step op s)

/-- Whether the child at position `i` reports `is_pending`. -/
def pendingAt (cs : List Child) (i : Nat) : Bool :=
  match cs.get? i with
  | some c => c.pending
  | none => false

/-- Only the child at the current index may be pending. -/
def onlyCurrentPending (s : Series) : Prop :=
  ∀ i, i < s.children.length → pendingAt s.children i = true → i = s.index

/-- At most one child reports `is_pending` at a time. -/
def atMostOnePending (s : Series) : Prop :=
  ∀ i j, i < s.children.length → j < s.children.length →
    pendingAt s.children i = true → pendingAt s.children j = true → i = j

theorem seriesCommitAux_spec (fuel : Nat) :
    ∀ (cs : List Child) (i : Nat), cs.length ≤ i + fuel →
      i ≤ (seriesCommitAux fuel cs i).1 ∧
      (seriesCommitAux fuel cs i).2.1.length = cs.length ∧
      (∀ j, j ≠ (seriesCommitAux fuel cs i).1 →
        (seriesCommitAux fuel cs i).2.1.get? j = cs.get? j) ∧
      (∀ j, i ≤ j → j < (seriesCommitAux fuel cs i).1 →
        ∀ c, cs.get? j = some c → c.pending = false ∧ c.work = 0) ∧
      (∀ c, cs.get? i = some c → c.pending = true →
        seriesCommitAux fuel cs i = (i, cs, false)) ∧
      (∀ c, cs.get? (seriesCommitAux fuel cs i).1 = some c →
        (seriesCommitAux fuel cs i).2.1.get? (seriesCommitAux fuel cs i).1 =
          some c ∨
        (c.pending = false ∧
         (seriesCommitAux fuel cs i).2.1.get? (seriesCommitAux fuel cs i).1 =
           some (Child.commit c).1)) := by
  induction fuel with
  | zero =>
    intro cs i _
    refine ⟨Nat.le_refl i, rfl, fun j _ => rfl, ?_, fun c _ _ => rfl, ?_⟩
    · intro j h1 h2 c _
      exact absurd (Nat.lt_of_le_of_lt h1 h2) (Nat.lt_irrefl i)
    · intro c hc
      exact Or.inl hc
  | succ fuel ih =>
    intro cs i hlen
    cases hg : cs.get? i with
    | none =>
      have hg2 : cs[i]? = none := by
        rw [← List.get?_eq_getElem?]
        exact hg
      have hred : seriesCommitAux (fuel + 1) cs i = (i, cs, false) := by
        simp [seriesCommitAux, hg2]
      rw [hred]
      refine ⟨Nat.le_refl i, rfl, fun j _ => rfl, ?_, ?_, ?_⟩
      · intro j h1 h2 c _
        exact absurd (Nat.lt_of_le_of_lt h1 h2) (Nat.lt_irrefl i)
      · intro c hc _
        exact Option.noConfusion hc
      · intro c hc
        exact Or.inl hc
    | some c =>
      have hg2 : cs[i]? = some c := by
        rw [← List.get?_eq_getElem?]
        exact hg
      by_cases hp : c.pending = true
      · have hred : seriesCommitAux (fuel + 1) cs i = (i, cs, false) := by
          simp [seriesCommitAux, hg2, hp]
        rw [hred]
        refine ⟨Nat.le_refl i, rfl, fun j _ => rfl, ?_, fun c2 _ _ => rfl, ?_⟩
        · intro j h1 h2 c2 _
          exact absurd (Nat.lt_of_le_of_lt h1 h2) (Nat.lt_irrefl i)
        · intro c2 hc
          exact Or.inl hc
      · have hp2 : c.pending = false := by
          cases hcp : c.pending
          · rfl
          · exact absurd hcp hp
        by_cases hm : Child.has_more c = false
        · have hwork : c.work = 0 := by
            simp [Child.has_more] at hm
            omega
          have hbound : cs.length ≤ (i + 1) + fuel := by omega
          have hred : seriesCommitAux (fuel + 1) cs i =
              seriesCommitAux fuel cs (i + 1) := by
            simp [seriesCommitAux, hg2, hp2, hm]
          rw [hred]
          obtain ⟨a1, a2, a3, a4, a5, a6⟩ := ih cs (i + 1) hbound
          refine ⟨Nat.le_trans (Nat.le_succ i) a1, a2, a3, ?_, ?_, a6⟩
          · intro j h1 h2 c2 hc2
            by_cases hji : j = i
            · subst hji
              rw [hg] at hc2
              injection hc2 with h3
              subst h3
              exact ⟨hp2, hwork⟩
            · exact a4 j (by omega) h2 c2 hc2
          · intro c2 hc2 hcp
            injection hc2 with h3
            subst h3
            rw [hp2] at hcp
            exact Bool.noConfusion hcp
        · obtain ⟨hi, -⟩ := List.get?_eq_some.mp hg
          have hred : seriesCommitAux (fuel + 1) cs i =
              (i, cs.set i (Child.commit c).1, (Child.commit c).2) := by
            simp [seriesCommitAux, hg2, hp2, hm]
          rw [hred]
          refine ⟨Nat.le_refl i, List.length_set cs i _, ?_, ?_, ?_, ?_⟩
          · intro j hj
            exact List.get?_set_ne _ _ (Ne.symm hj)
          · intro j h1 h2 c2 _
            exact absurd (Nat.lt_of_le_of_lt h1 h2) (Nat.lt_irrefl i)
          · intro c2 hc2 hcp
            injection hc2 with h3
            subst h3
            rw [hp2] at hcp
            exact Bool.noConfusion hcp
          · intro c2 hc2
            have hc2b : cs.get? i = some c2 := hc2
            rw [hg] at hc2b
            injection hc2b with h3
            subst h3
            right
            exact ⟨hp2, List.get?_set_eq_of_lt _ hi⟩

theorem pendingAt_some {cs : List Child} {j : Nat}
    (h : pendingAt cs j = true) :
    ∃ c, cs.get? j = some c ∧ c.pending = true := by
  unfold pendingAt at h
  cases hg : cs.get? j with
  | none =>
    rw [hg] at h
    exact Bool.noConfusion h
  | some c =>
    rw [hg] at h
    exact ⟨c, rfl, h⟩

theorem commit_preserves_onlyCurrentPending (s : Series)
    (h : onlyCurrentPending s) : onlyCurrentPending (Series.commit s).1 := by
  obtain ⟨a1, a2, a3, a4, a5, a6⟩ :=
    seriesCommitAux_spec (s.children.length + 1) s.children s.index (by omega)
  intro j hj hpj
  by_cases hjt : j = (Series.commit s).1.index
  · exact hjt
  · exfalso
    have hne : j ≠ (seriesCommitAux (s.children.length + 1) s.children
        s.index).1 := hjt
    have hpj2 : pendingAt s.children j = true := by
      unfold pendingAt at hpj ⊢
      rw [← a3 j hne]
      exact hpj
    obtain ⟨c, hc, hcp⟩ := pendingAt_some hpj2
    have hjlen : j < s.children.length := by
      have := hj
      simp only [Series.commit] at this
      omega
    have hjx : j = s.index := h j hjlen hpj2
    rw [hjx] at hne hc
    have hlt : s.index < (seriesCommitAux (s.children.length + 1) s.children
        s.index).1 := lt_of_le_of_ne a1 hne
    have hx := a4 s.index (Nat.le_refl s.index) hlt c hc
    rw [hx.1] at hcp
    exact Bool.noConfusion hcp

theorem join_preserves_onlyCurrentPending (s : Series)
    (h : onlyCurrentPending s) : onlyCurrentPending (Series.join s).1 := by
  have hchar : (Series.join s).1 = s ∨
      ∃ c, s.children.get? s.index = some c ∧ c.pending = true ∧
        (Series.join s).1 =
          { s with children := s.children.set s.index (Child.join c).1 } := by
    unfold Series.join
    cases hg : s.children.get? s.index with
    | none => exact Or.inl rfl
    | some c =>
      by_cases hp : c.pending = true
      · right
        exact ⟨c, rfl, hp, by simp [hp]⟩
      · left
        simp [hp]
  rcases hchar with hchar | ⟨c, hc, hcp, hchar⟩
  · rw [hchar]
    exact h
  · rw [hchar]
    intro j hj hpj
    by_cases hji : j = s.index
    · exact hji
    · have hpj2 : pendingAt s.children j = true := by
        unfold pendingAt at hpj ⊢
        rw [List.get?_set_ne _ _ (fun hx => hji hx.symm)] at hpj
        exact hpj
      have hjlen : j < s.children.length := by
        simpa [List.length_set] using hj
      exact h j hjlen hpj2

theorem reset_onlyCurrentPending (s : Series) :
    onlyCurrentPending (Series.reset s) := by
  intro j hj hpj
  exfalso
  obtain ⟨c, hc, hcp⟩ := pendingAt_some hpj
  unfold Series.reset at hc
  rw [List.get?_map] at hc
  cases hg : s.children.get? j with
  | none =>
    rw [hg] at hc
    exact Option.noConfusion hc
  | some c0 =>
    rw [hg] at hc
    injection hc with h2
    rw [← h2] at hcp
    exact Bool.noConfusion hcp

theorem step_preserves_onlyCurrentPending (op : SOp) (s : Series)
    (h : onlyCurrentPending s) : onlyCurrentPending (Series.step op s) := by
  cases op with
  | commit => exact commit_preserves_onlyCurrentPending s h
  | join => exact join_preserves_onlyCurrentPending s h
  | reset => exact reset_onlyCurrentPending s

theorem run_preserves_onlyCurrentPending (ops : List SOp) :
    ∀ s : Series, onlyCurrentPending s →
      onlyCurrentPending (Series.run ops s) := by
  induction ops with
  | nil => intro s h; exact h
  | cons op ops ih =>
    intro s h
    exact ih _ (step_preserves_onlyCurrentPending op s h)

/-- C6.  Starting from any `SeriesProcess` state in which only the
current child may be pending (in particular a freshly built or reset
one), after any sequence of `reset`/`commit`/`join` calls at most one
child reports `is_pending`; moreover `commit` refuses (returns `False`
with nothing changed) while the current child is pending, advances the
internal index only across children that report no more work, and leaves
every child except the one at the final index untouched (it commits only
that current child). -/
theorem series_single_pending_spec (s : Series) (ops : List SOp)
    (h : onlyCurrentPending s) :
    atMostOnePending (Series.run ops s) ∧
    (Series.is_pending s = true → Series.commit s = (s, false)) ∧
    (∀ j c, s.index ≤ j → j < (Series.commit s).1.index →
      s.children.get? j = some c → c.pending = false ∧ c.work = 0) ∧
    (∀ j, j ≠ (Series.commit s).1.index →
      (Series.commit s).1.children.get? j = s.children.get? j) := by
  obtain ⟨a1, a2, a3, a4, a5, a6⟩ :=
    seriesCommitAux_spec (s.children.length + 1) s.children s.index (by omega)
  refine ⟨?_, ?_, ?_, ?_⟩
  · have hrun := run_preserves_onlyCurrentPending ops s h
    intro i j hi hj hpi hpj
    rw [hrun i hi hpi, hrun j hj hpj]
  · intro hpend
    have hx : ∃ c, s.children.get? s.index = some c ∧ c.pending = true := by
      unfold Series.is_pending at hpend
      cases hg : s.children.get? s.index with
      | none =>
        rw [hg] at hpend
        exact Bool.noConfusion hpend
      | some c =>
        rw [hg] at hpend
        exact ⟨c, rfl, hpend⟩
    obtain ⟨c, hc, hcp⟩ := hx
    have h5 := a5 c hc hcp
    unfold Series.commit
    rw [h5]
  · intro j c h1 h2 hc
    exact a4 j h1 h2 c hc
  · intro j hj
    exact a3 j hj

/-- A two-child series used as the C6 witness input. -/
def seriesTwo : Series :=
  ⟨[{ pending := false, work := 1, commitRet := true, joinRet := true,
      init := 1, commits := 0, joins := 0 },
    { pending := false, work := 1, commitRet := true, joinRet := true,
      init := 1, commits := 0, joins := 0 }], 0⟩

/-- Witness for C6 on `seriesTwo` with a commit/join/commit run. -/
theorem series_single_pending_spec_witness :
    onlyCurrentPending seriesTwo ∧
    atMostOnePending (Series.run [SOp.commit, SOp.join, SOp.commit]
      seriesTwo) := by
  have hoc : onlyCurrentPending seriesTwo := by
    unfold onlyCurrentPending
    decide
  exact ⟨hoc, (series_single_pending_spec seriesTwo
    [SOp.commit, SOp.join, SOp.commit] hoc).1⟩

/-- `SwitchProcess` state (process.py): the children, the chosen child
(`_current`, an object reference in the source, modelled as the chosen
index), and the `_decided` flag.  The switcher callable always exists
(the property setter rejects non-callables); it is modelled by the
integer it returns for this reset cycle (`swIdx`), with `swCalls` a
ghost counter of its invocations. -/
structure Switch where
  children : List Child
  current : Option Nat
  decided : Bool
  swIdx : Int
  swCalls : Nat
deriving DecidableEq, Repr

/-- `SwitchProcess.commit`: only when no child is chosen and no decision
has been made, it sets `_decided`, evaluates the switcher once, checks
`0 <= index < len(self)` (a failing check is caught, leaving no chosen
child and returning `False`), then records the chosen child and commits
it, returning that child's result.  In every other state it returns
`False` without invoking anything. -/
def Switch.commit (s : Switch) : Switch × Bool :=
  if s.current = none ∧ s.decided = false then
    if 0 ≤ s.swIdx ∧ s.swIdx < (s.children.length : Int) then
      match s.children.get? s.swIdx.toNat with
      | some c =>
        ({ s with
            decided := true,
            swCalls := s.swCalls + 1,
            current := some s.swIdx.toNat,
            children := s.children.set s.swIdx.toNat (Child.commit c).1 },
         (Child.commit c).2)
      | none =>
        ({ s with decided := true, swCalls := s.swCalls + 1 }, false)
    else
      ({ s with decided := true, swCalls := s.swCalls + 1 }, false)
  else
    (s, false)

/-- `SwitchProcess.is_pending`: delegates to the chosen child if any. -/
def Switch.is_pending (s : Switch) : Bool :=
  match s.current with
  | some i =>
    match s.children.get? i with
    | some c => c.pending
    | none => false
  | none => false

/-- `SwitchProcess.join`: delegates to the chosen child if any,
otherwise returns `False`. -/
def Switch.join (s : Switch) : Switch × Bool :=
  match s.current with
  | some i =>
    match s.children.get? i with
    | some c =>
      ({ s with children := s.children.set i (Child.join c).1 },
       (Child.join c).2)
    | none => (s, false)
  | none => (s, false)

/-- `SwitchProcess.has_more`: the chosen child's `has_more`, or "not yet
decided" while no child is chosen. -/
def Switch.has_more (s : Switch) : Bool :=
  match s.current with
  | some i =>
    match s.children.get? i with
    | some c => Child.has_more c
    | none => false
  | none => !s.decided

/-- `SwitchProcess.reset`: resets the children and forgets the decision,
starting a new cycle. -/
def Switch.reset (s : Switch) : Switch :=
  { s with
      children := s.children.map Child.reset,
      current := none,
      decided := false }

/-- The operations a caller can perform on a `SwitchProcess` inside one
reset cycle. -/
inductive SwOp where
  | commit
  | join
deriving DecidableEq, Repr

/-- One caller operation on a `SwitchProcess` (result values dropped). -/
def Switch.step : SwOp → Switch → Switch
  | SwOp.commit, s => (Switch.commit s).1
  | SwOp.join, s => (Switch.join s).1

/-- A sequence of caller operations on a `SwitchProcess`. -/
def Switch.run : List SwOp → Switch → Switch
  | [], s => s
  | op :: ops, s => Switch.run ops (Switch.step op s)

/-- Total number of child-commit invocations recorded by the ghost
counters. -/
def sumCommits : List Child → Nat
  | [] => 0
  | c :: cs => c.commits + sumCommits cs

theorem sumCommits_set :
    ∀ (l : List Child) (i : Nat) (c c2 : Child), l.get? i = some c →
      sumCommits (l.set i c2) + c.commits = sumCommits l + c2.commits := by
  intro l
  induction l with
  | nil =>
    intro i c c2 h
    cases h
  | cons hd tl ih =>
    intro i c c2 h
    cases i with
    | zero =>
      injection h with h2
      subst h2
      simp [sumCommits, List.set]
      omega
    | succ n =>
      have h2 : tl.get? n = some c := h
      have := ih n c c2 h2
      simp [sumCommits, List.set]
      omega

theorem child_commit_commits (c : Child) :
    (Child.commit c).1.commits = c.commits + 1 := by
  unfold Child.commit
  by_cases h : c.pending = false ∧ 0 < c.work
  · rw [if_pos h]
    by_cases h2 : c.commitRet <;> simp [h2]
  · rw [if_neg h]

theorem child_join_commits (c : Child) :
    (Child.join c).1.commits = c.commits := by
  unfold Child.join
  by_cases h : c.pending = true <;> simp [h]

/-- The per-cycle invariant of a `SwitchProcess`: before the decision
nothing has been evaluated or committed; after it, the switcher has been
called at most once more and at most one child commit has happened. -/
def SwitchInv (s0 t : Switch) : Prop :=
  (t.decided = false ∧ t.current = none ∧ t.swCalls = s0.swCalls ∧
    sumCommits t.children = sumCommits s0.children) ∨
  (t.decided = true ∧ t.swCalls ≤ s0.swCalls + 1 ∧
    sumCommits t.children ≤ sumCommits s0.children + 1)

theorem switch_join_fields (t : Switch) :
    (Switch.join t).1.decided = t.decided ∧
    (Switch.join t).1.current = t.current ∧
    (Switch.join t).1.swCalls = t.swCalls ∧
    sumCommits (Switch.join t).1.children = sumCommits t.children := by
  unfold Switch.join
  cases hc : t.current with
  | none =>
    refine ⟨rfl, ?_, rfl, rfl⟩
    show t.current = none
    exact hc
  | some i =>
    cases hg : t.children.get? i with
    | none =>
      refine ⟨?_, ?_, ?_, ?_⟩
      · simp only [hg]
      · simp only [hg]
        exact hc
      · simp only [hg]
      · simp only [hg]
    | some c =>
      refine ⟨?_, ?_, ?_, ?_⟩
      · simp only [hg]
      · simp only [hg]
      · simp only [hg]
      · simp only [hg]
        have h1 := sumCommits_set t.children i c (Child.join c).1 hg
        have h2 := child_join_commits c
        omega

theorem switch_join_inv (s0 t : Switch) (h : SwitchInv s0 t) :
    SwitchInv s0 (Switch.join t).1 := by
  obtain ⟨f1, f2, f3, f4⟩ := switch_join_fields t
  rcases h with ⟨d1, d2, d3, d4⟩ | ⟨d1, d2, d3⟩
  · exact Or.inl ⟨f1.trans d1, f2.trans d2, f3.trans d3, f4.trans d4⟩
  · refine Or.inr ⟨f1.trans d1, ?_, ?_⟩
    · omega
    · omega

theorem switch_commit_refused (t : Switch) (h : t.decided = true) :
    Switch.commit t = (t, false) := by
  have hcond : ¬(t.current = none ∧ t.decided = false) := by
    intro hc
    rw [h] at hc
    exact Bool.noConfusion hc.2
  unfold Switch.commit
  rw [if_neg hcond]

theorem switch_commit_inv (s0 t : Switch) (h : SwitchInv s0 t) :
    SwitchInv s0 (Switch.commit t).1 := by
  rcases h with ⟨d1, d2, d3, d4⟩ | ⟨d1, d2, d3⟩
  · unfold Switch.commit
    rw [if_pos ⟨d2, d1⟩]
    by_cases hr : 0 ≤ t.swIdx ∧ t.swIdx < (t.children.length : Int)
    · rw [if_pos hr]
      cases hg : t.children.get? t.swIdx.toNat with
      | none =>
        refine Or.inr ⟨rfl, ?_, ?_⟩
        · show t.swCalls + 1 ≤ s0.swCalls + 1
          omega
        · show sumCommits t.children ≤ sumCommits s0.children + 1
          omega
      | some c =>
        refine Or.inr ⟨rfl, ?_, ?_⟩
        · show t.swCalls + 1 ≤ s0.swCalls + 1
          omega
        · show sumCommits (t.children.set t.swIdx.toNat (Child.commit c).1) ≤
            sumCommits s0.children + 1
          have h1 := sumCommits_set t.children t.swIdx.toNat c
            (Child.commit c).1 hg
          have h2 := child_commit_commits c
          omega
    · rw [if_neg hr]
      refine Or.inr ⟨rfl, ?_, ?_⟩
      · show t.swCalls + 1 ≤ s0.swCalls + 1
        omega
      · show sumCommits t.children ≤ sumCommits s0.children + 1
        omega
  · rw [switch_commit_refused t d1]
    exact Or.inr ⟨d1, d2, d3⟩

theorem switch_run_inv (ops : List SwOp) :
    ∀ s0 t : Switch, SwitchInv s0 t → SwitchInv s0 (Switch.run ops t) := by
  induction ops with
  | nil => intro s0 t h; exact h
  | cons op ops ih =>
    intro s0 t h
    cases op with
    | commit => exact ih s0 _ (switch_commit_inv s0 t h)
    | join => exact ih s0 _ (switch_join_inv s0 t h)

/-- A child that needs two rounds of work, so that it still has more
work after its first commit/join round. -/
def switchChild : Child :=
  { pending := false, work := 2, commitRet := true, joinRet := true,
    init := 2, commits := 0, joins := 0 }

/-- A fresh one-child `SwitchProcess` whose switcher returns index 0. -/
def switchStart : Switch :=
  { children := [switchChild], current := none, decided := false,
    swIdx := 0, swCalls := 0 }

/-- `switchStart` after one commit/join round: the chosen child is not
pending and still has work, so a commit delegated to it would succeed. -/
def switchAfterRound : Switch :=
  (Switch.join (Switch.commit switchStart).1).1

/-- C5 counterexample.  After the decision, a further `commit` on the
switch is *not* delegated to the chosen child: the chosen child is idle
with work remaining (its own `commit` would return `True`), yet the
switch's `commit` returns `False` and leaves the whole state — including
the child's ghost commit counter — unchanged, because the source only
commits inside the `self._current is None and not self._decided`
branch. -/
theorem switch_claim_counterexample :
    (Switch.commit switchAfterRound).2 = false ∧
    (Switch.commit switchAfterRound).1 = switchAfterRound ∧
    (∃ c, switchAfterRound.children.get? 0 = some c ∧
      switchAfterRound.current = some 0 ∧
      (Child.commit c).2 = true ∧
      Child.has_more c = true) := by
  decide

/-- C5 as amended.  Within one reset cycle of a `SwitchProcess`: the
switcher is evaluated exactly once, on the first commit, and its result
is validated to be in range (an out-of-range result consumes the
decision, chooses no child and returns `False`); the first commit with a
valid index records the chosen child and commits it once, returning that
child's result; every later commit returns `False` without invoking any
child's commit, while `join`, `has_more` and `is_pending` do delegate to
the chosen child; consequently across any sequence of commit/join calls
the switcher runs at most once and at most one child commit ever
happens. -/
theorem switch_decides_once_spec (s : Switch) (ops : List SwOp)
    (h1 : s.current = none) (h2 : s.decided = false) :
    ((Switch.commit s).1.swCalls = s.swCalls + 1 ∧
      (Switch.commit s).1.decided = true) ∧
    (Switch.run ops s).swCalls ≤ s.swCalls + 1 ∧
    sumCommits (Switch.run ops s).children ≤ sumCommits s.children + 1 ∧
    (¬(0 ≤ s.swIdx ∧ s.swIdx < (s.children.length : Int)) →
      Switch.commit s =
        ({ s with decided := true, swCalls := s.swCalls + 1 }, false)) ∧
    (∀ c, 0 ≤ s.swIdx → s.swIdx < (s.children.length : Int) →
      s.children.get? s.swIdx.toNat = some c →
      Switch.commit s =
        ({ s with
            decided := true,
            swCalls := s.swCalls + 1,
            current := some s.swIdx.toNat,
            children := s.children.set s.swIdx.toNat (Child.commit c).1 },
         (Child.commit c).2)) ∧
    (∀ t : Switch, t.decided = true → Switch.commit t = (t, false)) ∧
    (∀ (t : Switch) (i : Nat) (c : Child), t.current = some i →
      t.children.get? i = some c →
      Switch.join t =
        ({ t with children := t.children.set i (Child.join c).1 },
         (Child.join c).2) ∧
      Switch.has_more t = Child.has_more c ∧
      Switch.is_pending t = c.pending) := by
  have hinv := switch_run_inv ops s s (Or.inl ⟨h2, h1, rfl, rfl⟩)
  refine ⟨?_, ?_, ?_, ?_, ?_, ?_, ?_⟩
  · unfold Switch.commit
    rw [if_pos ⟨h1, h2⟩]
    by_cases hr : 0 ≤ s.swIdx ∧ s.swIdx < (s.children.length : Int)
    · rw [if_pos hr]
      cases hg : s.children.get? s.swIdx.toNat with
      | none => exact ⟨rfl, rfl⟩
      | some c => exact ⟨rfl, rfl⟩
    · rw [if_neg hr]
      exact ⟨rfl, rfl⟩
  · rcases hinv with ⟨-, -, d3, -⟩ | ⟨-, d2, -⟩
    · omega
    · exact d2
  · rcases hinv with ⟨-, -, -, d4⟩ | ⟨-, -, d3⟩
    · omega
    · exact d3
  · intro hr
    unfold Switch.commit
    rw [if_pos ⟨h1, h2⟩, if_neg hr]
  · intro c hm1 hm2 hg
    unfold Switch.commit
    rw [if_pos ⟨h1, h2⟩, if_pos ⟨hm1, hm2⟩]
    simp only [hg]
  · intro t ht
    exact switch_commit_refused t ht
  · intro t i c ht hg
    refine ⟨?_, ?_, ?_⟩
    · unfold Switch.join
      simp only [ht, hg]
    · unfold Switch.has_more
      simp only [ht, hg]
    · unfold Switch.is_pending
      simp only [ht, hg]

/-- Witness for the amended C5 on the concrete one-child switch with a
commit/join/commit sequence. -/
theorem switch_decides_once_spec_witness :
    switchStart.current = none ∧ switchStart.decided = false ∧
    (Switch.run [SwOp.commit, SwOp.join, SwOp.commit]
      switchStart).swCalls ≤ switchStart.swCalls + 1 ∧
    sumCommits (Switch.run [SwOp.commit, SwOp.join, SwOp.commit]
      switchStart).children ≤ sumCommits switchStart.children + 1 ∧
    (Switch.commit switchStart).1.swCalls = switchStart.swCalls + 1 := by
  have h := switch_decides_once_spec switchStart
    [SwOp.commit, SwOp.join, SwOp.commit] rfl rfl
  exact ⟨rfl, rfl, h.2.1, h.2.2.1, h.1.1⟩

/-- `SweepProcess` state (process.py): the body process (a `Child` of
the section-4.4 contract), the sweeper callable — a stateful callable
modelled by the boolean it returns on its `k`-th invocation — and the
`_in_loop`/`_finished` flags.  The sweeper is not reset by `reset()`
(its state lives outside the process), so `k` survives a reset. -/
structure Sweep where
  body : Child
  sw : Nat → Bool
  k : Nat
  in_loop : Bool
  finished : Bool

/-- `SweepProcess.commit`: while looping, delegates to the body;
otherwise, when not finished, invokes the sweeper once — `True` starts a
loop round (reset the body, commit it, return its result), `False`
terminates the sweep (sets `_finished`) and returns `False`; when
finished it returns `False` untouched. -/
def Sweep.commit (s : Sweep) : Sweep × Bool :=
  if s.in_loop = true then
    ({ s with body := (Child.commit s.body).1 }, (Child.commit s.body).2)
  else if s.finished = false then
    if s.sw s.k = true then
      ({ s with
          k := s.k + 1,
          in_loop := true,
          body := (Child.commit (Child.reset s.body)).1 },
       (Child.commit (Child.reset s.body)).2)
    else
      ({ s with k := s.k + 1, finished := true }, false)
  else
    (s, false)

/-- `SweepProcess.is_pending`: delegates to the body while looping. -/
def Sweep.is_pending (s : Sweep) : Bool :=
  if s.in_loop = true then s.body.pending else false

/-- `SweepProcess.join`: while looping, joins the body and leaves the
loop if the body has no more work; otherwise returns `_finished`. -/
def Sweep.join (s : Sweep) : Sweep × Bool :=
  if s.in_loop = true then
    ({ s with
        body := (Child.join s.body).1,
        in_loop := Child.has_more (Child.join s.body).1 },
     (Child.join s.body).2)
  else
    (s, s.finished)

/-- `SweepProcess.has_more`. -/
def Sweep.has_more (s : Sweep) : Bool :=
  !s.finished

/-- `SweepProcess.reset`: resets the body and both flags (not the
sweeper, whose state is external). -/
def Sweep.reset (s : Sweep) : Sweep :=
  { s with body := Child.reset s.body, in_loop := false, finished := false }

/-- The operations a caller can perform on a `SweepProcess` inside one
reset cycle. -/
inductive SwpOp where
  | commit
  | join
deriving DecidableEq, Repr

/-- One caller operation on a `SweepProcess` (result values dropped). -/
def Sweep.step : SwpOp → Sweep → Sweep
  | SwpOp.commit, s => (Sweep.commit s).1
  | SwpOp.join, s => (Sweep.join s).1

/-- A sequence of caller operations on a `SweepProcess`. -/
def Sweep.run : List SwpOp → Sweep → Sweep
  | [], s => s
  | op :: ops, s => Sweep.run ops (Sweep.step op s)

theorem sweep_finished_fixed (t : Sweep) (ha : t.in_loop = false)
    (hb : t.finished = true) :
    Sweep.commit t = (t, false) ∧ Sweep.join t = (t, true) := by
  constructor
  · unfold Sweep.commit
    rw [if_neg (by rw [ha]; exact Bool.noConfusion),
      if_neg (by rw [hb]; exact Bool.noConfusion)]
  · unfold Sweep.join
    rw [if_neg (by rw [ha]; exact Bool.noConfusion), hb]

theorem sweep_run_fixed (ops : List SwpOp) :
    ∀ t : Sweep, t.in_loop = false → t.finished = true →
      Sweep.run ops t = t := by
  induction ops with
  | nil => intro t _ _; rfl
  | cons op ops ih =>
    intro t ha hb
    have hfix := sweep_finished_fixed t ha hb
    cases op with
    | commit =>
      show Sweep.run ops (Sweep.commit t).1 = t
      rw [hfix.1]
      exact ih t ha hb
    | join =>
      show Sweep.run ops (Sweep.join t).1 = t
      rw [hfix.2]
      exact ih t ha hb

/-- C7.  When the sweeper first returns `False` (necessarily while the
body is not looping), that very `commit` terminates the sweep: it
returns `False`, leaves the body untouched, and `has_more` is `False`
from that moment on — so the driver loop performs exactly one more
`join` (which reports success) and stops one outer iteration after the
sweeper's `False`.  From then on no sequence of commit/join calls ever
invokes the body's commit (the state does not change at all) until
`reset()`, which makes `has_more` true again. -/
theorem sweep_termination_spec (s : Sweep) (ops : List SwpOp)
    (h1 : s.in_loop = false) (h2 : s.finished = false)
    (h3 : s.sw s.k = false) :
    (Sweep.commit s).2 = false ∧
    (Sweep.commit s).1.finished = true ∧
    (Sweep.commit s).1.in_loop = false ∧
    (Sweep.commit s).1.body = s.body ∧
    Sweep.has_more (Sweep.commit s).1 = false ∧
    (Sweep.join (Sweep.commit s).1).2 = true ∧
    Sweep.run ops (Sweep.commit s).1 = (Sweep.commit s).1 ∧
    Sweep.has_more (Sweep.reset (Sweep.commit s).1) = true := by
  have hcommit : Sweep.commit s =
      ({ s with k := s.k + 1, finished := true }, false) := by
    unfold Sweep.commit
    rw [if_neg (by rw [h1]; exact Bool.noConfusion),
      if_pos h2, if_neg (by rw [h3]; exact Bool.noConfusion)]
  rw [hcommit]
  refine ⟨rfl, rfl, h1, rfl, ?_, ?_, ?_, rfl⟩
  · show (!true) = false
    rfl
  · have := (sweep_finished_fixed { s with k := s.k + 1, finished := true }
      h1 rfl).2
    rw [this]
  · exact sweep_run_fixed ops _ h1 rfl

/-- The one-round body of the C7 witness sweep. -/
def sweepWBody : Child :=
  { pending := false, work := 1, commitRet := true, joinRet := true,
    init := 1, commits := 0, joins := 0 }

/-- The concrete sweep used as C7's witness: a sweeper that immediately
returns `False` over a one-round body. -/
def sweepW : Sweep :=
  { body := sweepWBody, sw := fun _ => false, k := 0, in_loop := false,
    finished := false }

/-- Witness for C7 on `sweepW` with a commit/join tail. -/
theorem sweep_termination_spec_witness :
    sweepW.in_loop = false ∧ sweepW.finished = false ∧
    sweepW.sw sweepW.k = false ∧
    (Sweep.commit sweepW).2 = false ∧
    Sweep.has_more (Sweep.commit sweepW).1 = false ∧
    (Sweep.commit sweepW).1.body = sweepW.body ∧
    Sweep.run [SwpOp.commit, SwpOp.join] (Sweep.commit sweepW).1 =
      (Sweep.commit sweepW).1 := by
  have h := sweep_termination_spec sweepW [SwpOp.commit, SwpOp.join]
    rfl rfl rfl
  exact ⟨rfl, rfl, rfl, h.1, h.2.2.2.2.1, h.2.2.2.1, h.2.2.2.2.2.2.1⟩

end Softlab
